import Mathlib

/-!
# Verification of the Seek job-hunting scripts

A shallow embedding of the two Python scripts of this repository,
`scripts/seek_job_analysis.py` and `scripts/cache_ai_job_details.py`,
together with proofs of the specification's claims about them.

Modelling conventions:
* Python strings are modelled as `List Nat` of Unicode code points
  (`strCodes` converts a Lean string literal for concrete examples).
* `datetime` instants are modelled as `Int` seconds since the Unix epoch
  (UTC); `timedelta(days=d)` is `d * 86400` seconds and Python's `//` and
  `%` on a positive divisor are `Int.ediv` / `Int.emod`.
* HTTP traffic is modelled by explicit oracles: the Listing Collector
  takes the list of decoded `data` arrays the search endpoint returns for
  pages 1, 2, …, and the Detail Cache Filler takes a function giving the
  outcome of the n-th request issued for a given identifier.
* The filesystem cache directory is an association list from identifier
  to file content; `path.exists` is a lookup, `write_text` prepends.
* `time.sleep` calls are pacing only and have no observable effect in the
  model.
-/

/-! ## Text primitives (`normalise_markdown`)

`normalise_markdown` is `" ".join(markdown.lower().split())`: lower-case,
split on whitespace runs discarding empties, re-join with single spaces.
`str.lower` is modelled on the ASCII range (code points 65–90 map to
97–122); `str.split()` whitespace is modelled by the ASCII whitespace
characters space, tab, newline, carriage return, vertical tab, form feed.
-/

/-- Python whitespace test (ASCII range), as used by `str.split()` and
`str.strip()`. -/
def isSpace (c : Nat) : Bool :=
  c = 32 || c = 9 || c = 10 || c = 13 || c = 11 || c = 12

/-- `str.lower` on one code point (ASCII range). -/
def toLowerChar (c : Nat) : Nat :=
  if 65 ≤ c ∧ c ≤ 90 then c + 32 else c

/-- Code points of a Lean string literal, for concrete examples. -/
def strCodes (s : String) : List Nat :=
  s.data.map Char.toNat

/-- One step of splitting on whitespace: a whitespace character opens a
new (initially empty) piece, any other character is prepended to the
current first piece. -/
def splitStep (c : Nat) (r : List (List Nat)) : List (List Nat) :=
  if isSpace c then [] :: r
  else
    match r with
    | [] => [[c]]
    | w :: ws => (c :: w) :: ws

/-- Split into pieces at whitespace characters, keeping empty pieces
(the analogue of `re.split` on single characters). -/
def splitRaw (l : List Nat) : List (List Nat) :=
  l.foldr splitStep [[]]

/-- Python `str.split()`: whitespace-separated words, empties dropped. -/
def pywords (l : List Nat) : List (List Nat) :=
  (splitRaw l).filter (fun w => !w.isEmpty)

/-- Python `" ".join(ws)`. -/
def unwords : List (List Nat) → List Nat
  | [] => []
  | [w] => w
  | w :: w' :: ws => w ++ 32 :: unwords (w' :: ws)

/-- `normalise_markdown` from `scripts/seek_job_analysis.py`:
`" ".join(markdown.lower().split())`. -/
def normalise_markdown (l : List Nat) : List Nat :=
  unwords (pywords (l.map toLowerChar))

/-! ## Regular expressions (`SKILL_PATTERNS`, `extract_skills`)

The lexicon of `scripts/seek_job_analysis.py` uses only a small regex
vocabulary: literal characters, character classes like `[- ]`, optional
pieces `(...)?`, alternation `|`, `\s+`, and the word boundary `\b`.  The
engine below implements exactly these constructs over code-point lists;
`\w` (for `\b`) is modelled on the ASCII range.  The patterns are applied
to the output of `normalise_markdown`, which is already lower-cased, so
the `re.IGNORECASE` flag of `build_skill_regex` is inert for these
all-lower-case patterns and is not modelled separately.
-/

/-- Regex abstract syntax: empty string, single character from a class,
word boundary, concatenation, alternation, optional piece, and one or
more characters from a class (for `\s+`). -/
inductive Rx where
  | eps : Rx
  | cls (cs : List Nat) : Rx
  | wb : Rx
  | seq (a b : Rx) : Rx
  | alt (a b : Rx) : Rx
  | opt (a : Rx) : Rx
  | plusCls (cs : List Nat) : Rx

/-- `\w` on one code point (ASCII range). -/
def isWordChar (c : Nat) : Bool :=
  (48 ≤ c && c ≤ 57) || (65 ≤ c && c ≤ 90) || (97 ≤ c && c ≤ 122) || c = 95

def isWordOpt : Option Nat → Bool
  | none => false
  | some c => isWordChar c

def isWordHead : List Nat → Bool
  | [] => false
  | c :: _ => isWordChar c

/-- `\b` holds at a position iff exactly one of the neighbouring
characters is a word character (text edges count as non-word). -/
def isBoundary (p : Option Nat) (s : List Nat) : Bool :=
  isWordOpt p != isWordHead s

/-- All ways to consume one or more characters of class `cs` from the
front of `s`; each outcome is (last consumed char, remaining input). -/
def runPlus (cs : List Nat) : List Nat → List (Option Nat × List Nat)
  | [] => []
  | c :: rest =>
    if cs.contains c then (some c, rest) :: runPlus cs rest else []

/-- Nondeterministic matcher: all outcomes of matching `r` at the front
of `s`, threading the previously consumed character for `\b`. -/
def runRx : Rx → Option Nat → List Nat → List (Option Nat × List Nat)
  | .eps, p, s => [(p, s)]
  | .cls cs, _, s =>
    match s with
    | [] => []
    | c :: rest => if cs.contains c then [(some c, rest)] else []
  | .wb, p, s => if isBoundary p s then [(p, s)] else []
  | .seq a b, p, s => (runRx a p s).flatMap (fun q => runRx b q.1 q.2)
  | .alt a b, p, s => runRx a p s ++ runRx b p s
  | .opt a, p, s => (p, s) :: runRx a p s
  | .plusCls cs, _, s => runPlus cs s

/-- `r` matches starting exactly at the current position. -/
def rxMatchHere (r : Rx) (p : Option Nat) (s : List Nat) : Bool :=
  !(runRx r p s).isEmpty

/-- `re.search` from the current position onwards. -/
def rxSearchFrom (r : Rx) : Option Nat → List Nat → Bool
  | p, [] => rxMatchHere r p []
  | p, c :: rest => rxMatchHere r p (c :: rest) || rxSearchFrom r (some c) rest

/-- `pattern.search(s)` as a boolean: a match exists somewhere in `s`. -/
def rxSearch (r : Rx) (s : List Nat) : Bool :=
  rxSearchFrom r none s

/-- Concatenation of a list of regexes. -/
def rxseq (l : List Rx) : Rx :=
  l.foldr Rx.seq Rx.eps

/-- A literal string pattern. -/
def lit (s : String) : Rx :=
  rxseq ((strCodes s).map (fun c => Rx.cls [c]))

/-- `\b ... \b` around a sequence of pieces. -/
def wrap (l : List Rx) : Rx :=
  rxseq ([Rx.wb] ++ l ++ [Rx.wb])

/-- `\bword\b`. -/
def wpat (s : String) : Rx :=
  wrap [lit s]

/-- The `\s` character class (ASCII range). -/
def spaceCls : List Nat :=
  [32, 9, 10, 13, 11, 12]

/-- `SKILL_PATTERNS` from `scripts/seek_job_analysis.py`, in source
order, each pattern transcribed into `Rx`. -/
def SKILL_PATTERNS : List (List Nat × Rx) :=
  [ (strCodes "python", wpat "python"),
    (strCodes "pytorch", wpat "pytorch"),
    (strCodes "tensorflow", wpat "tensorflow"),
    (strCodes "keras", wpat "keras"),
    (strCodes "scikit-learn", wrap [lit "scikit", .cls [45, 32], lit "learn"]),
    (strCodes "pandas", wpat "pandas"),
    (strCodes "numpy", wpat "numpy"),
    (strCodes "sql", wpat "sql"),
    (strCodes "nosql", wrap [lit "no", .opt (.cls [45, 32]), lit "sql"]),
    (strCodes "spark", wpat "spark"),
    (strCodes "databricks", wpat "databricks"),
    (strCodes "aws", wpat "aws"),
    (strCodes "azure", wpat "azure"),
    (strCodes "gcp", .alt (wpat "google cloud") (wpat "gcp")),
    (strCodes "docker", wpat "docker"),
    (strCodes "kubernetes", wpat "kubernetes"),
    (strCodes "mlops", wrap [lit "ml", .opt (.cls [45, 32]), lit "ops"]),
    (strCodes "ci/cd", wrap [lit "ci", .opt (.cls [47]), lit "cd"]),
    (strCodes "git", wpat "git"),
    (strCodes "linux", wpat "linux"),
    (strCodes "rest api", wrap [lit "rest", .opt (lit "ful"), .plusCls spaceCls, lit "api"]),
    (strCodes "grpc", wpat "grpc"),
    (strCodes "microservices", wrap [lit "micro", .opt (.cls [45]), lit "services"]),
    (strCodes "nlp", .alt (wpat "natural language processing") (wpat "nlp")),
    (strCodes "computer vision", wpat "computer vision"),
    (strCodes "reinforcement learning", wpat "reinforcement learning"),
    (strCodes "machine learning", wpat "machine learning"),
    (strCodes "deep learning", wpat "deep learning"),
    (strCodes "generative ai", wpat "generative ai"),
    (strCodes "llm", .alt (wrap [lit "llm", .opt (.cls [115])]) (wpat "large language model")),
    (strCodes "rag", .alt (wpat "rag") (wrap [lit "retrieval", .cls [45, 32], lit "augmented"])),
    (strCodes "prompt engineering", wpat "prompt engineering"),
    (strCodes "statistics", wrap [lit "statistic", .opt (.cls [115])]),
    (strCodes "probability", wrap [lit "probabilit", .alt (lit "y") (lit "ies")]),
    (strCodes "linear algebra", wpat "linear algebra"),
    (strCodes "agile", wpat "agile"),
    (strCodes "jira", wpat "jira"),
    (strCodes "power bi", wpat "power bi"),
    (strCodes "tableau", wpat "tableau"),
    (strCodes "snowflake", wpat "snowflake"),
    (strCodes "bigquery", wpat "bigquery"),
    (strCodes "airflow", wpat "airflow"),
    (strCodes "sql server", wpat "sql server"),
    (strCodes "postgresql", wrap [lit "postgres", .opt (lit "ql")]),
    (strCodes "mongodb", wpat "mongodb") ]

/-- `extract_skills` from `scripts/seek_job_analysis.py`: normalise the
markdown, then collect every lexicon label whose pattern matches; the
Python `set` is modelled as the (duplicate-free) list of matching labels
in lexicon order. -/
def extract_skills (markdown_text : List Nat) : List (List Nat) :=
  (SKILL_PATTERNS.filter
    (fun p => rxSearch p.2 (normalise_markdown markdown_text))).map Prod.fst

/-! ## Dates (`week_floor`) and the Listing Collector

Instants are `Int` seconds since the Unix epoch (UTC).  The epoch day
1970-01-01 was a Thursday, so Python's `datetime.weekday()` (Monday = 0)
of the calendar day `d` days after the epoch is `(d + 3) % 7`.
`daysFromCivil` converts a proleptic-Gregorian calendar date to such a
day count (the standard civil-from-days algorithm), so concrete dates in
the claims can be written readably.
-/

/-- Calendar day (days since 1970-01-01) of an instant. -/
def dayOf (t : Int) : Int :=
  t / 86400

/-- Python `datetime.weekday()` of a calendar day: Monday = 0. -/
def weekdayOf (d : Int) : Int :=
  (d + 3) % 7

/-- `week_floor` from `scripts/seek_job_analysis.py`: subtract
`weekday()` days and truncate to midnight UTC.  Returns an instant. -/
def week_floor (t : Int) : Int :=
  (dayOf t - weekdayOf (dayOf t)) * 86400

/-- The calendar day used as the weekly bucket key:
`week_floor(dt).date()`.  The Python code renders it with
`.isoformat()`; ISO `YYYY-MM-DD` strings sort exactly like the
underlying days, so the key is modelled as the day number itself. -/
def weekKey (t : Int) : Int :=
  dayOf t - weekdayOf (dayOf t)

/-- Days since 1970-01-01 of a proleptic-Gregorian date (for writing the
claims' concrete dates). -/
def daysFromCivil (y m d : Int) : Int :=
  let y' : Int := if m ≤ 2 then y - 1 else y
  let era : Int := y' / 400
  let yoe : Int := y' - era * 400
  let doy : Int := (153 * (if 2 < m then m - 3 else m + 9) + 2) / 5 + d - 1
  let doe : Int := yoe * 365 + yoe / 4 - yoe / 100 + doy
  era * 146097 + doe - 719468

/-- `JobRecord` from `scripts/seek_job_analysis.py`. -/
structure JobRecord where
  job_id : List Nat
  title : List Nat
  listing_date : Int
  location : Option (List Nat)
  employer : Option (List Nat)
  work_type : Option (List Nat)
  description_text : Option (List Nat) := none
deriving DecidableEq

/-- One raw listing object of a search-response `data` array.  `id` and
`listingDate` are `none` when the field is missing or falsy (the empty
string is represented as `some []` for `id`, which the code also treats
as missing); `listingDate` carries the instant denoted by the ISO
timestamp string. -/
structure RawJob where
  id : Option (List Nat) := none
  listingDate : Option Int := none
  title : Option (List Nat) := none
  locations : List (Option (List Nat)) := []
  workTypes : Option (List (List Nat)) := none
  companyName : Option (List Nat) := none
  advertiserDescription : Option (List Nat) := none
deriving DecidableEq

/-- State of `fetch_jobs_for_keyword`'s loop: accumulated records, the
`seen_ids` set (as a list), and the `reached_cutoff` flag. -/
structure CState where
  results : List JobRecord
  seen : List (List Nat)
  reachedCutoff : Bool
deriving DecidableEq

/-- The `JobRecord(...)` constructor call inside the page loop:
locations joined by `", "` keeping only truthy labels (`or None`),
work types joined by `", "` (`or None`), employer falling back from
`companyName` to the advertiser description. -/
def mkRecord (jid : List Nat) (dt : Int) (job : RawJob) : JobRecord :=
  let locJoin : List Nat :=
    List.intercalate [44, 32]
      (job.locations.filterMap (fun o =>
        match o with
        | none => none
        | some s => if s = [] then none else some s))
  let wtJoin : List Nat := List.intercalate [44, 32] (job.workTypes.getD [])
  { job_id := jid
    title := job.title.getD []
    listing_date := dt
    location := if locJoin = [] then none else some locJoin
    employer :=
      match job.companyName with
      | some s => if s = [] then job.advertiserDescription else some s
      | none => job.advertiserDescription
    work_type := if wtJoin = [] then none else some wtJoin }

/-- The body of `for job in jobs:` in `fetch_jobs_for_keyword`: skip a
listing without a usable identifier or one already seen, skip one
without a timestamp, set `reached_cutoff` (and skip) when the timestamp
is strictly older than the cutoff, otherwise record the listing. -/
def stepJob (cutoff : Int) (st : CState) (job : RawJob) : CState :=
  match job.id with
  | none => st
  | some jid =>
    if jid = [] then st
    else if jid ∈ st.seen then st
    else
      match job.listingDate with
      | none => st
      | some dt =>
        if dt < cutoff then { st with reachedCutoff := true }
        else
          { st with
            results := st.results ++ [mkRecord jid dt job]
            seen := jid :: st.seen }

/-- The `while page <= max_pages and not reached_cutoff:` pagination
loop.  `pages` is the sequence of `data` arrays the search endpoint
returns for pages `page`, `page+1`, …; an exhausted model page list
behaves like the server returning no further results (`if not jobs:
break`). -/
def fetchLoop (cutoff : Int) (maxPages : Nat) : Nat → List (List RawJob) → CState → CState
  | _, [], st => st
  | page, pg :: rest, st =>
    if maxPages < page then st
    else if st.reachedCutoff then st
    else if pg.isEmpty then st
    else fetchLoop cutoff maxPages (page + 1) rest (pg.foldl (stepJob cutoff) st)

/-- Final loop state of `fetch_jobs_for_keyword` for a given `now`,
`max_age_days`, `max_pages` and page sequence. -/
def collectorState (now max_age_days : Int) (max_pages : Nat)
    (pages : List (List RawJob)) : CState :=
  fetchLoop (now - max_age_days * 86400) max_pages 1 pages ⟨[], [], false⟩

/-- `fetch_jobs_for_keyword` from `scripts/seek_job_analysis.py`
(HTTP responses supplied as `pages`; `session`, `cookies` and the
request parameters do not influence the control flow modelled here). -/
def fetch_jobs_for_keyword (now max_age_days : Int) (max_pages : Nat)
    (pages : List (List RawJob)) : List JobRecord :=
  (collectorState now max_age_days max_pages pages).results

/-- Invariant: every accumulated record's listing time is at or after
the cutoff. -/
def boundedBy (c : Int) (st : CState) : Prop :=
  ∀ r ∈ st.results, c ≤ r.listing_date

/-- Invariant: accumulated record identifiers are pairwise distinct and
all registered in `seen_ids`. -/
def dedupOk (st : CState) : Prop :=
  (st.results.map JobRecord.job_id).Nodup ∧ ∀ r ∈ st.results, r.job_id ∈ st.seen

/-- A concrete listing strictly older than the cutoff of a run with
`now = 0`, `max_age_days = 90` (cutoff `-7776000` seconds). -/
def cJobOld : RawJob :=
  { id := some (strCodes "A"), listingDate := some (-8000000) }

/-- A concrete listing within that cutoff. -/
def cJobNew : RawJob :=
  { id := some (strCodes "B"), listingDate := some 0 }

/-! ## Weekly aggregation (`summarise_weekly_counts`)

`summarise_weekly_counts` folds records into a `Counter` keyed by
`week_floor(listing_date).date().isoformat()` and returns
`dict(sorted(...))`.  A `Counter` in insertion order is modelled by the
deduplicated key list paired with occurrence counts, and `sorted` by
`List.insertionSort` on the key; ISO `YYYY-MM-DD` strings compare
exactly like the underlying day numbers, so keys stay day numbers. -/

/-- Ascending order on bucket entries: by week-start day. -/
def weekLe (a b : Int × Nat) : Prop :=
  a.1 ≤ b.1

instance : DecidableRel weekLe :=
  fun a b => inferInstanceAs (Decidable (a.1 ≤ b.1))

instance : IsTotal (Int × Nat) weekLe :=
  ⟨fun a b => Int.le_total a.1 b.1⟩

instance : IsTrans (Int × Nat) weekLe :=
  ⟨fun _ _ _ h1 h2 => le_trans h1 h2⟩

/-- `summarise_weekly_counts` from `scripts/seek_job_analysis.py`. -/
def summarise_weekly_counts (records : List JobRecord) : List (Int × Nat) :=
  List.insertionSort weekLe
    (((records.map (fun r => weekKey r.listing_date)).dedup).map
      (fun k => (k, records.countP (fun r => weekKey r.listing_date == k))))

/-- A record listed on Wednesday 2024-01-03. -/
def cRecWed : JobRecord :=
  { job_id := strCodes "j", title := [], listing_date := daysFromCivil 2024 1 3 * 86400,
    location := none, employer := none, work_type := none }

/-! ## Skill frequencies (`compute_skill_frequencies`)

The Python key `(-count, label)` sorts by descending count, ties by
ascending label; `leCodes` is code-point-wise lexicographic string
order, exactly Python's `str` comparison for the (ASCII) lexicon
labels. -/

/-- Lexicographic order on code-point strings (Python `str` `<=`). -/
def leCodes : List Nat → List Nat → Bool
  | [], _ => true
  | _ :: _, [] => false
  | a :: as, b :: bs =>
    if a < b then true
    else if b < a then false
    else leCodes as bs

/-- The `sorted` key `(-item[1], item[0])` of
`compute_skill_frequencies`: descending count, ties broken by ascending
label. -/
def freqLe (a b : List Nat × Nat) : Prop :=
  b.2 < a.2 ∨ (a.2 = b.2 ∧ leCodes a.1 b.1 = true)

instance : DecidableRel freqLe :=
  fun a b => inferInstanceAs (Decidable (b.2 < a.2 ∨ (a.2 = b.2 ∧ leCodes a.1 b.1 = true)))

instance : IsTotal (List Nat × Nat) freqLe where
  total a b := by
    have htot : ∀ x y : List Nat, leCodes x y = true ∨ leCodes y x = true := by
      intro x
      induction x with
      | nil => intro y; left; rfl
      | cons c cs ih =>
        intro y
        cases y with
        | nil => right; rfl
        | cons d ds =>
          show (if c < d then true else if d < c then false else leCodes cs ds) = true ∨
            (if d < c then true else if c < d then false else leCodes ds cs) = true
          by_cases hcd : c < d
          · left; rw [if_pos hcd]
          · by_cases hdc : d < c
            · right; rw [if_pos hdc]
            · rw [if_neg hcd, if_neg hdc, if_neg hdc, if_neg hcd]
              exact ih ds
    rcases Nat.lt_trichotomy a.2 b.2 with h | h | h
    · right; left; exact h
    · rcases htot a.1 b.1 with h' | h'
      · left; right; exact ⟨h, h'⟩
      · right; right; exact ⟨h.symm, h'⟩
    · left; left; exact h

instance : IsTrans (List Nat × Nat) freqLe where
  trans a b c hab hbc := by
    have htr : ∀ x y z : List Nat,
        leCodes x y = true → leCodes y z = true → leCodes x z = true := by
      intro x
      induction x with
      | nil => intro y z _ _; rfl
      | cons u xs ih =>
        intro y z hxy hyz
        cases y with
        | nil => exact absurd hxy (by simp [leCodes])
        | cons v ys =>
          cases z with
          | nil => exact absurd hyz (by simp [leCodes])
          | cons w zs =>
            have hxy' : (if u < v then true else if v < u then false
              else leCodes xs ys) = true := hxy
            have hyz' : (if v < w then true else if w < v then false
              else leCodes ys zs) = true := hyz
            show (if u < w then true else if w < u then false else leCodes xs zs) = true
            by_cases huv : u < v
            · by_cases hvw : v < w
              · rw [if_pos (Nat.lt_trans huv hvw)]
              · by_cases hwv : w < v
                · rw [if_neg hvw, if_pos hwv] at hyz'
                  exact absurd hyz' (by simp)
                · have hvw' : v = w := Nat.le_antisymm (Nat.not_lt.mp hwv) (Nat.not_lt.mp hvw)
                  rw [if_pos (hvw' ▸ huv)]
            · by_cases hvu : v < u
              · rw [if_neg huv, if_pos hvu] at hxy'
                exact absurd hxy' (by simp)
              · have huv' : u = v := Nat.le_antisymm (Nat.not_lt.mp hvu) (Nat.not_lt.mp huv)
                subst huv'
                rw [if_neg huv, if_neg hvu] at hxy'
                by_cases huw : u < w
                · rw [if_pos huw]
                · by_cases hwu : w < u
                  · rw [if_neg huw, if_pos hwu] at hyz'
                    exact absurd hyz' (by simp)
                  · rw [if_neg huw, if_neg hwu]
                    rw [if_neg huw, if_neg hwu] at hyz'
                    exact ih ys zs hxy' hyz'
    rcases hab with h1 | ⟨h1, h1'⟩
    · rcases hbc with h2 | ⟨h2, _⟩
      · left; exact Nat.lt_trans h2 h1
      · left; exact h2 ▸ h1
    · rcases hbc with h2 | ⟨h2, h2'⟩
      · left; exact h1 ▸ h2
      · right; exact ⟨h1.trans h2, htr a.1 b.1 c.1 h1' h2'⟩

/-- The per-run `Counter` of `compute_skill_frequencies`: each label
that some record's description matched, with the number of records
matching it (insertion order, as a Python `Counter`). -/
def skill_counts (records : List JobRecord) : List (List Nat × Nat) :=
  let hits := records.flatMap (fun r =>
    match r.description_text with
    | none => []
    | some t => extract_skills t)
  hits.dedup.map (fun lab => (lab, hits.count lab))

/-- `compute_skill_frequencies` from `scripts/seek_job_analysis.py`:
`dict(sorted(counts.items(), key=lambda item: (-item[1], item[0])))`. -/
def compute_skill_frequencies (records : List JobRecord) : List (List Nat × Nat) :=
  List.insertionSort freqLe (skill_counts records)

/-! ## Detail Cache Filler (`cache_details`)

From `scripts/cache_ai_job_details.py`.  The HTTP oracle maps an
identifier and a request index (0-based, per identifier) to an outcome:
a transport-level exception (`requests.RequestException`) or a response
with a status code and body.  The cache directory is an association
list; `path.exists()` is `lookupFS`, `path.write_text` prepends.  The
`fetched` component records each identifier for which at least one HTTP
request was issued during the run. -/

/-- Outcome of one HTTP request: a raised `requests.RequestException`
(connection error / timeout), or a response with status and body. -/
inductive Outcome where
  | err : Outcome
  | resp (status : Nat) (body : List Nat) : Outcome
deriving DecidableEq

/-- Python `resp.text.strip()` truthiness: the body contains some
non-whitespace character. -/
def stripTruthy (body : List Nat) : Bool :=
  body.any (fun c => !isSpace c)

/-- `MAX_ATTEMPTS` from `scripts/cache_ai_job_details.py`. -/
def MAX_ATTEMPTS : Nat := 4

/-- The `while attempt < MAX_ATTEMPTS` retry loop for one identifier,
given the response oracle for that identifier, remaining attempts, and
the index of the next request; returns the successfully fetched body (if
any) and the next request index (so the second component minus the
starting index is the number of HTTP requests issued). -/
def fetchRetry (resp : Nat → Outcome) : Nat → Nat → Option (List Nat) × Nat
  | 0, k => (none, k)
  | fuel + 1, k =>
    match resp k with
    | .err => fetchRetry resp fuel (k + 1)
    | .resp s b =>
      if s = 200 ∧ stripTruthy b = true then (some b, k + 1)
      else if s = 429 then fetchRetry resp fuel (k + 1)
      else (none, k + 1)

/-- `path.exists()` / reading the cache directory: first entry wins. -/
def lookupFS : List Nat → List (List Nat × List Nat) → Option (List Nat)
  | _, [] => none
  | i, e :: fs => if e.1 = i then some e.2 else lookupFS i fs

/-- State of a `cache_details` run: the cache directory and the
identifiers fetched (at least one HTTP request) so far. -/
structure CacheRun where
  fs : List (List Nat × List Nat)
  fetched : List (List Nat)
deriving DecidableEq

/-- The body of `for idx, job in enumerate(jobs)`: skip a cached
identifier, otherwise run the retry loop and write the cache file on
success. -/
def cacheStep (o : List Nat → Nat → Outcome) (st : CacheRun) (i : List Nat) : CacheRun :=
  match lookupFS i st.fs with
  | some _ => st
  | none =>
    match (fetchRetry (o i) MAX_ATTEMPTS 0).1 with
    | some body => { fs := (i, body) :: st.fs, fetched := st.fetched ++ [i] }
    | none => { fs := st.fs, fetched := st.fetched ++ [i] }

/-- `cache_details` from `scripts/cache_ai_job_details.py`, over an
identifier list (the `job_id`s of the listing file) and an initial cache
directory. -/
def cache_details (o : List Nat → Nat → Outcome) (jobs : List (List Nat))
    (fs0 : List (List Nat × List Nat)) : CacheRun :=
  jobs.foldl (cacheStep o) { fs := fs0, fetched := [] }

/-- An oracle whose identifier `"E"` always gets a 500 response, while
every other identifier gets a successful 200 response. -/
def cOracle : List Nat → Nat → Outcome :=
  fun i _ => if i = strCodes "E" then .resp 500 (strCodes "boom") else .resp 200 (strCodes "body")

/-! ## Theorems -/

theorem isSpace_toLowerChar (c : Nat) : isSpace (toLowerChar c) = isSpace c := by
  unfold toLowerChar
  split
  · next h =>
    have h1 : isSpace (c + 32) = false := by simp [isSpace]; omega
    have h2 : isSpace c = false := by simp [isSpace]; omega
    rw [h1, h2]
  · rfl

theorem toLowerChar_idem (c : Nat) : toLowerChar (toLowerChar c) = toLowerChar c := by
  unfold toLowerChar
  split
  · next h => rw [if_neg]; omega
  · rfl

theorem splitRaw_ne_nil (l : List Nat) : splitRaw l ≠ [] := by
  induction l with
  | nil => simp [splitRaw]
  | cons c l ih =>
    show splitStep c (splitRaw l) ≠ []
    unfold splitStep
    split
    · simp
    · match h : splitRaw l with
      | [] => exact absurd h ih
      | w :: ws => simp

theorem foldr_splitStep_spacefree (w : List Nat) (g : List Nat) (gs : List (List Nat))
    (hw : ∀ c ∈ w, isSpace c = false) :
    w.foldr splitStep (g :: gs) = (w ++ g) :: gs := by
  induction w with
  | nil => rfl
  | cons c w ih =>
    have hc : isSpace c = false := hw c (List.mem_cons_self c w)
    have ih' := ih (fun c hc => hw c (List.mem_cons_of_mem _ hc))
    simp only [List.foldr_cons, ih']
    unfold splitStep
    rw [hc]
    simp

theorem splitRaw_spacefree (w : List Nat) (hw : ∀ c ∈ w, isSpace c = false) :
    splitRaw w = [w] := by
  unfold splitRaw
  rw [foldr_splitStep_spacefree w [] [] hw, List.append_nil]

theorem splitRaw_append_space (w : List Nat) (r : List Nat)
    (hw : ∀ c ∈ w, isSpace c = false) :
    splitRaw (w ++ 32 :: r) = w :: splitRaw r := by
  unfold splitRaw
  rw [List.foldr_append]
  show w.foldr splitStep (splitStep 32 (r.foldr splitStep [[]])) = _
  have h32 : splitStep 32 (r.foldr splitStep [[]]) = [] :: r.foldr splitStep [[]] := by
    unfold splitStep; rfl
  rw [h32, foldr_splitStep_spacefree w [] _ hw, List.append_nil]

theorem pywords_append_space (w : List Nat) (r : List Nat)
    (hne : w ≠ []) (hw : ∀ c ∈ w, isSpace c = false) :
    pywords (w ++ 32 :: r) = w :: pywords r := by
  unfold pywords
  rw [splitRaw_append_space w r hw]
  simp [List.filter_cons, hne]

theorem pywords_spacefree (w : List Nat) (hne : w ≠ []) (hw : ∀ c ∈ w, isSpace c = false) :
    pywords w = [w] := by
  unfold pywords
  rw [splitRaw_spacefree w hw]
  simp [List.filter_cons, hne]

theorem pywords_unwords (ws : List (List Nat))
    (h : ∀ w ∈ ws, w ≠ [] ∧ ∀ c ∈ w, isSpace c = false) :
    pywords (unwords ws) = ws := by
  induction ws with
  | nil => rfl
  | cons w ws ih =>
    match ws, ih with
    | [], _ =>
      exact pywords_spacefree w (h w (List.mem_cons_self _ _)).1 (h w (List.mem_cons_self _ _)).2
    | w' :: ws', ih =>
      show pywords (w ++ 32 :: unwords (w' :: ws')) = _
      rw [pywords_append_space w _ (h w (List.mem_cons_self _ _)).1
        (h w (List.mem_cons_self _ _)).2]
      rw [ih (fun u hu => h u (List.mem_cons_of_mem _ hu))]

theorem mem_splitRaw_spacefree (l : List Nat) :
    ∀ w ∈ splitRaw l, ∀ c ∈ w, isSpace c = false := by
  induction l with
  | nil =>
    intro w hw c hc
    simp [splitRaw] at hw
    subst hw
    simp at hc
  | cons a l ih =>
    intro w hw c hc
    have hw' : w ∈ splitStep a (splitRaw l) := hw
    unfold splitStep at hw'
    split at hw'
    · rcases List.mem_cons.mp hw' with h | h
      · subst h; simp at hc
      · exact ih w h c hc
    · next hsp =>
      match hsr : splitRaw l with
      | [] => exact absurd hsr (splitRaw_ne_nil l)
      | v :: vs =>
        rw [hsr] at hw'
        rcases List.mem_cons.mp hw' with h | h
        · subst h
          rcases List.mem_cons.mp hc with h | h
          · subst h; simpa using hsp
          · exact ih v (hsr ▸ List.mem_cons_self _ _) c h
        · exact ih w (hsr ▸ List.mem_cons_of_mem _ h) c hc

theorem splitRaw_map_toLower (l : List Nat) :
    splitRaw (l.map toLowerChar) = (splitRaw l).map (List.map toLowerChar) := by
  induction l with
  | nil => rfl
  | cons c l ih =>
    show splitStep (toLowerChar c) (splitRaw (l.map toLowerChar)) = _
    rw [ih]
    show _ = (splitStep c (splitRaw l)).map (List.map toLowerChar)
    unfold splitStep
    rw [isSpace_toLowerChar]
    split
    · simp
    · match h : splitRaw l with
      | [] => exact absurd h (splitRaw_ne_nil l)
      | w :: ws => simp

theorem pywords_map_toLower (l : List Nat) :
    pywords (l.map toLowerChar) = (pywords l).map (List.map toLowerChar) := by
  unfold pywords
  rw [splitRaw_map_toLower]
  rw [List.filter_map]
  congr 1
  apply List.filter_congr
  intro w _
  simp only [Function.comp]
  cases w <;> simp

theorem map_toLower_unwords (ws : List (List Nat)) :
    (unwords ws).map toLowerChar = unwords (ws.map (List.map toLowerChar)) := by
  induction ws with
  | nil => rfl
  | cons w ws ih =>
    match ws, ih with
    | [], _ => rfl
    | w' :: ws', ih =>
      show (w ++ 32 :: unwords (w' :: ws')).map toLowerChar = _
      rw [List.map_append, List.map_cons, ih]
      rfl

/-- **C8.** Normalization idempotence: `normalise_markdown` applied twice
equals `normalise_markdown` applied once (lower-casing and collapsing all
whitespace runs to single spaces is idempotent). -/
theorem normalise_markdown_idem (l : List Nat) :
    normalise_markdown (normalise_markdown l) = normalise_markdown l := by
  unfold normalise_markdown
  set ws := pywords (l.map toLowerChar) with hws
  have hprops : ∀ w ∈ ws, w ≠ [] ∧ ∀ c ∈ w, isSpace c = false := by
    intro w hw
    rw [hws] at hw
    unfold pywords at hw
    have hmem := List.mem_of_mem_filter hw
    have hfil := List.of_mem_filter hw
    constructor
    · simpa using hfil
    · exact mem_splitRaw_spacefree _ w hmem
  have hlower : ws.map (List.map toLowerChar) = ws := by
    rw [hws, pywords_map_toLower]
    rw [List.map_map]
    apply List.map_congr_left
    intro w _
    show (w.map toLowerChar).map toLowerChar = _
    rw [List.map_map]
    apply List.map_congr_left
    intro c _
    exact toLowerChar_idem c
  rw [map_toLower_unwords, hlower, pywords_unwords ws hprops]

theorem fetchLoop_nil (c : Int) (mp page : Nat) (st : CState) :
    fetchLoop c mp page [] st = st := rfl

theorem fetchLoop_cons (c : Int) (mp page : Nat) (pg : List RawJob)
    (rest : List (List RawJob)) (st : CState) :
    fetchLoop c mp page (pg :: rest) st =
      if mp < page then st
      else if st.reachedCutoff then st
      else if pg.isEmpty then st
      else fetchLoop c mp (page + 1) rest (pg.foldl (stepJob c) st) := rfl

theorem stepJob_old (c : Int) (st : CState) (j : RawJob) (jid : List Nat) (dt : Int)
    (h1 : j.id = some jid) (h2 : jid ≠ []) (h3 : jid ∉ st.seen)
    (h4 : j.listingDate = some dt) (h5 : dt < c) :
    stepJob c st j = { st with reachedCutoff := true } := by
  unfold stepJob
  rw [h1]
  dsimp only
  rw [if_neg h2, if_neg h3, h4]
  dsimp only
  rw [if_pos h5]

theorem stepJob_new (c : Int) (st : CState) (j : RawJob) (jid : List Nat) (dt : Int)
    (h1 : j.id = some jid) (h2 : jid ≠ []) (h3 : jid ∉ st.seen)
    (h4 : j.listingDate = some dt) (h5 : ¬ dt < c) :
    stepJob c st j =
      { st with results := st.results ++ [mkRecord jid dt j], seen := jid :: st.seen } := by
  unfold stepJob
  rw [h1]
  dsimp only
  rw [if_neg h2, if_neg h3, h4]
  dsimp only
  rw [if_neg h5]

/-- Every `stepJob` outcome: listing skipped, cutoff reached, or a new
record appended. -/
theorem stepJob_shape (c : Int) (st : CState) (j : RawJob) :
    stepJob c st j = st ∨
    stepJob c st j = { st with reachedCutoff := true } ∨
    ∃ jid dt, j.id = some jid ∧ jid ≠ [] ∧ jid ∉ st.seen ∧
      j.listingDate = some dt ∧ ¬ dt < c ∧
      stepJob c st j =
        { st with results := st.results ++ [mkRecord jid dt j], seen := jid :: st.seen } := by
  rcases h1 : j.id with _ | jid
  · left; unfold stepJob; rw [h1]
  · by_cases h2 : jid = []
    · left; unfold stepJob; rw [h1]; dsimp only; rw [if_pos h2]
    · by_cases h3 : jid ∈ st.seen
      · left; unfold stepJob; rw [h1]; dsimp only; rw [if_neg h2, if_pos h3]
      · rcases h4 : j.listingDate with _ | dt
        · left; unfold stepJob; rw [h1]; dsimp only; rw [if_neg h2, if_neg h3, h4]
        · by_cases h5 : dt < c
          · right; left; exact stepJob_old c st j jid dt h1 h2 h3 h4 h5
          · right; right
            exact ⟨jid, dt, rfl, h2, h3, rfl, h5, stepJob_new c st j jid dt h1 h2 h3 h4 h5⟩

theorem stepJob_flag (c : Int) (st : CState) (j : RawJob) (h : st.reachedCutoff = true) :
    (stepJob c st j).reachedCutoff = true := by
  rcases stepJob_shape c st j with he | he | ⟨jid, dt, _, _, _, _, _, he⟩ <;> rw [he] <;>
    exact h

theorem foldl_stepJob_flag (c : Int) (pg : List RawJob) :
    ∀ st : CState, st.reachedCutoff = true →
      (pg.foldl (stepJob c) st).reachedCutoff = true := by
  induction pg with
  | nil => intro st h; exact h
  | cons j pg ih => intro st h; exact ih _ (stepJob_flag c st j h)

theorem fetchLoop_flagged (c : Int) (mp page : Nat) (pages : List (List RawJob))
    (st : CState) (h : st.reachedCutoff = true) :
    fetchLoop c mp page pages st = st := by
  cases pages with
  | nil => rfl
  | cons pg rest =>
    rw [fetchLoop_cons]
    by_cases h1 : mp < page
    · rw [if_pos h1]
    · rw [if_neg h1, if_pos h]

/-- Once the cutoff flag is raised by the end of some page, any further
pages are never processed: the run on `pfx ++ pg :: rest` returns the
same state as the run truncated right after `pg`. -/
theorem fetchLoop_cutoff_trunc (c : Int) (mp : Nat) (pfx : List (List RawJob)) :
    ∀ (page : Nat) (st : CState) (pg : List RawJob) (rest : List (List RawJob)),
      (fetchLoop c mp page (pfx ++ [pg]) st).reachedCutoff = true →
      fetchLoop c mp page (pfx ++ pg :: rest) st = fetchLoop c mp page (pfx ++ [pg]) st := by
  induction pfx with
  | nil =>
    intro page st pg rest h
    simp only [List.nil_append] at h ⊢
    by_cases h1 : mp < page
    · rw [fetchLoop_cons, fetchLoop_cons, if_pos h1, if_pos h1]
    · by_cases h2 : st.reachedCutoff = true
      · rw [fetchLoop_cons, fetchLoop_cons, if_neg h1, if_neg h1, if_pos h2, if_pos h2]
      · by_cases h3 : pg.isEmpty = true
        · rw [fetchLoop_cons, fetchLoop_cons, if_neg h1, if_neg h1, if_neg h2, if_neg h2,
            if_pos h3, if_pos h3]
        · rw [fetchLoop_cons, if_neg h1, if_neg h2, if_neg h3] at h ⊢
          rw [fetchLoop_cons, if_neg h1, if_neg h2, if_neg h3]
          rw [fetchLoop_nil] at h
          exact fetchLoop_flagged c mp (page + 1) rest _ h
  | cons q pfx ih =>
    intro page st pg rest h
    simp only [List.cons_append] at h ⊢
    by_cases h1 : mp < page
    · rw [fetchLoop_cons, fetchLoop_cons, if_pos h1, if_pos h1]
    · by_cases h2 : st.reachedCutoff = true
      · rw [fetchLoop_cons, fetchLoop_cons, if_neg h1, if_neg h1, if_pos h2, if_pos h2]
      · by_cases h3 : q.isEmpty = true
        · rw [fetchLoop_cons, fetchLoop_cons, if_neg h1, if_neg h1, if_neg h2, if_neg h2,
            if_pos h3, if_pos h3]
        · rw [fetchLoop_cons, if_neg h1, if_neg h2, if_neg h3] at h ⊢
          rw [fetchLoop_cons, if_neg h1, if_neg h2, if_neg h3]
          exact ih (page + 1) _ pg rest h

theorem stepJob_boundedBy (c : Int) (st : CState) (j : RawJob) (h : boundedBy c st) :
    boundedBy c (stepJob c st j) := by
  rcases stepJob_shape c st j with he | he | ⟨jid, dt, _, _, _, _, h5, he⟩ <;> rw [he]
  · exact h
  · exact h
  · intro r hr
    rcases List.mem_append.mp hr with h' | h'
    · exact h r h'
    · have : r = mkRecord jid dt j := by simpa using h'
      subst this
      exact Int.not_lt.mp h5

theorem foldl_stepJob_boundedBy (c : Int) (pg : List RawJob) :
    ∀ st : CState, boundedBy c st → boundedBy c (pg.foldl (stepJob c) st) := by
  induction pg with
  | nil => intro st h; exact h
  | cons j pg ih => intro st h; exact ih _ (stepJob_boundedBy c st j h)

theorem fetchLoop_boundedBy (c : Int) (mp : Nat) (pages : List (List RawJob)) :
    ∀ (page : Nat) (st : CState), boundedBy c st →
      boundedBy c (fetchLoop c mp page pages st) := by
  induction pages with
  | nil => intro page st h; exact h
  | cons pg rest ih =>
    intro page st h
    rw [fetchLoop_cons]
    by_cases h1 : mp < page
    · rw [if_pos h1]; exact h
    · rw [if_neg h1]
      by_cases h2 : st.reachedCutoff = true
      · rw [if_pos h2]; exact h
      · rw [if_neg h2]
        by_cases h3 : pg.isEmpty = true
        · rw [if_pos h3]; exact h
        · rw [if_neg h3]
          exact ih (page + 1) _ (foldl_stepJob_boundedBy c pg st h)

theorem stepJob_dedupOk (c : Int) (st : CState) (j : RawJob) (h : dedupOk st) :
    dedupOk (stepJob c st j) := by
  rcases stepJob_shape c st j with he | he | ⟨jid, dt, _, _, h3, _, _, he⟩ <;> rw [he]
  · exact h
  · exact h
  · constructor
    · show ((st.results ++ [mkRecord jid dt j]).map JobRecord.job_id).Nodup
      rw [List.map_append]
      rw [List.nodup_append]
      refine ⟨h.1, List.nodup_singleton _, ?_⟩
      intro x hx hx'
      have hxj : x = jid := by simpa using hx'
      subst hxj
      rcases List.mem_map.mp hx with ⟨r, hr, hrid⟩
      exact h3 (hrid ▸ h.2 r hr)
    · intro r hr
      rcases List.mem_append.mp hr with h' | h'
      · exact List.mem_cons_of_mem _ (h.2 r h')
      · have : r = mkRecord jid dt j := by simpa using h'
        subst this
        exact List.mem_cons_self _ _

theorem foldl_stepJob_dedupOk (c : Int) (pg : List RawJob) :
    ∀ st : CState, dedupOk st → dedupOk (pg.foldl (stepJob c) st) := by
  induction pg with
  | nil => intro st h; exact h
  | cons j pg ih => intro st h; exact ih _ (stepJob_dedupOk c st j h)

theorem fetchLoop_dedupOk (c : Int) (mp : Nat) (pages : List (List RawJob)) :
    ∀ (page : Nat) (st : CState), dedupOk st → dedupOk (fetchLoop c mp page pages st) := by
  induction pages with
  | nil => intro page st h; exact h
  | cons pg rest ih =>
    intro page st h
    rw [fetchLoop_cons]
    by_cases h1 : mp < page
    · rw [if_pos h1]; exact h
    · rw [if_neg h1]
      by_cases h2 : st.reachedCutoff = true
      · rw [if_pos h2]; exact h
      · rw [if_neg h2]
        by_cases h3 : pg.isEmpty = true
        · rw [if_pos h3]; exact h
        · rw [if_neg h3]
          exact ih (page + 1) _ (foldl_stepJob_dedupOk c pg st h)

/-- **C1 counterexample.** The claim says that after a too-old listing
the remaining items of the current page are skipped and none of them
appear in the output.  On the single page `[cJobOld, cJobNew]`, where
`cJobOld` (position 0) is strictly older than the cutoff, the later
item `cJobNew` of the same page nevertheless appears in the returned
list: the loop body only `continue`s past the old item. -/
theorem collector_same_page_counterexample :
    ((-8000000 : Int) < 0 - 90 * 86400 ∧ cJobOld.listingDate = some (-8000000)) ∧
    (fetch_jobs_for_keyword 0 90 160 [[cJobOld, cJobNew]]).map JobRecord.job_id =
      [strCodes "B"] :=
  ⟨⟨by decide, rfl⟩, by decide⟩

/-- **C1 (amended).** When a listing strictly older than the cutoff is
encountered, that listing itself is skipped and the `reached_cutoff`
flag is raised, so pagination stops after the current page (no item of
any later page is in the output); but the remaining items of the current
page are still processed, and an item within the cutoff that has a fresh
identifier is appended to the output even after the flag is set. -/
theorem collector_cutoff_page_behaviour :
    (∀ (c : Int) (st : CState) (j : RawJob) (jid : List Nat) (dt : Int),
        j.id = some jid → jid ≠ [] → jid ∉ st.seen → j.listingDate = some dt → dt < c →
        stepJob c st j = { st with reachedCutoff := true }) ∧
    (∀ (c : Int) (st : CState) (j : RawJob) (jid : List Nat) (dt : Int),
        j.id = some jid → jid ≠ [] → jid ∉ st.seen → j.listingDate = some dt → ¬ dt < c →
        (stepJob c st j).results = st.results ++ [mkRecord jid dt j]) ∧
    (∀ (now max_age_days : Int) (max_pages : Nat) (pfx : List (List RawJob))
        (pg : List RawJob) (rest : List (List RawJob)),
        (collectorState now max_age_days max_pages (pfx ++ [pg])).reachedCutoff = true →
        fetch_jobs_for_keyword now max_age_days max_pages (pfx ++ pg :: rest) =
          fetch_jobs_for_keyword now max_age_days max_pages (pfx ++ [pg])) := by
  refine ⟨fun c st j jid dt h1 h2 h3 h4 h5 => stepJob_old c st j jid dt h1 h2 h3 h4 h5,
    fun c st j jid dt h1 h2 h3 h4 h5 => ?_,
    fun now a mp pfx pg rest h => ?_⟩
  · rw [stepJob_new c st j jid dt h1 h2 h3 h4 h5]
  · show (fetchLoop _ _ 1 _ _).results = (fetchLoop _ _ 1 _ _).results
    rw [fetchLoop_cutoff_trunc _ _ pfx 1 _ pg rest h]

theorem collector_cutoff_page_behaviour_witness :
    stepJob (0 - 90 * 86400) ⟨[], [], false⟩ cJobOld = ⟨[], [], true⟩ ∧
    (stepJob (0 - 90 * 86400) ⟨[], [], true⟩ cJobNew).results =
      [] ++ [mkRecord (strCodes "B") 0 cJobNew] ∧
    fetch_jobs_for_keyword 0 90 160 ([] ++ [cJobOld, cJobNew] :: [[cJobNew]]) =
      fetch_jobs_for_keyword 0 90 160 ([] ++ [[cJobOld, cJobNew]]) :=
  ⟨collector_cutoff_page_behaviour.1 _ _ _ _ _ rfl (by decide) (by decide) rfl (by decide),
   collector_cutoff_page_behaviour.2.1 _ _ _ _ _ rfl (by decide) (by decide) rfl (by decide),
   collector_cutoff_page_behaviour.2.2 0 90 160 [] [cJobOld, cJobNew] [[cJobNew]] (by decide)⟩

/-- **C2.** Cutoff monotonicity: once the cutoff flag has been raised by
the end of some page, the loop never fetches or processes a later page —
the run over `pfx ++ pg :: rest` returns exactly the run truncated after
`pg`, so no listing coming from any page after `pg` appears in the
output of `fetch_jobs_for_keyword`. -/
theorem collector_cutoff_monotone (now max_age_days : Int) (max_pages : Nat)
    (pfx : List (List RawJob)) (pg : List RawJob) (rest : List (List RawJob))
    (h : (collectorState now max_age_days max_pages (pfx ++ [pg])).reachedCutoff = true) :
    fetch_jobs_for_keyword now max_age_days max_pages (pfx ++ pg :: rest) =
      fetch_jobs_for_keyword now max_age_days max_pages (pfx ++ [pg]) := by
  show (fetchLoop _ _ 1 _ _).results = (fetchLoop _ _ 1 _ _).results
  rw [fetchLoop_cutoff_trunc _ _ pfx 1 _ pg rest h]

theorem collector_cutoff_monotone_witness :
    (collectorState 0 90 160 ([] ++ [[cJobOld]])).reachedCutoff = true ∧
    fetch_jobs_for_keyword 0 90 160 ([] ++ [cJobOld] :: [[cJobNew]]) =
      fetch_jobs_for_keyword 0 90 160 ([] ++ [[cJobOld]]) :=
  ⟨by decide, collector_cutoff_monotone 0 90 160 [] [cJobOld] [[cJobNew]] (by decide)⟩

/-- **C3.** Deduplication: for every page sequence — repeated
identifiers within or across pages included — the list returned by
`fetch_jobs_for_keyword` contains each job identifier at most once
(a repeated identifier is dropped by the `seen_ids` check, without
error). -/
theorem collector_dedup (now max_age_days : Int) (max_pages : Nat)
    (pages : List (List RawJob)) :
    ((fetch_jobs_for_keyword now max_age_days max_pages pages).map JobRecord.job_id).Nodup := by
  have h0 : dedupOk ⟨[], [], false⟩ := by
    constructor
    · exact List.nodup_nil
    · intro r hr
      simp at hr
  exact (fetchLoop_dedupOk (now - max_age_days * 86400) max_pages pages 1 ⟨[], [], false⟩ h0).1

/-- **C10.** Every record returned by `fetch_jobs_for_keyword` has a
listing time at or after the cutoff `now − max_age_days` (in seconds,
`now − max_age_days · 86400`); a too-old listing is never recorded, even
when it appears on the same page after the first too-old one. -/
theorem collector_records_within_cutoff (now max_age_days : Int) (max_pages : Nat)
    (pages : List (List RawJob)) (r : JobRecord)
    (h : r ∈ fetch_jobs_for_keyword now max_age_days max_pages pages) :
    now - max_age_days * 86400 ≤ r.listing_date := by
  have h0 : boundedBy (now - max_age_days * 86400) ⟨[], [], false⟩ := by
    intro r hr
    simp at hr
  exact fetchLoop_boundedBy (now - max_age_days * 86400) max_pages pages 1 ⟨[], [], false⟩ h0 r h

theorem collector_records_within_cutoff_witness :
    (0 : Int) - 90 * 86400 ≤ (mkRecord (strCodes "B") 0 cJobNew).listing_date :=
  collector_records_within_cutoff 0 90 160 [[cJobNew]] _ (by decide)

/-- **C6.** The Weekly Aggregator: every bucket key is the week start
obtained by subtracting `weekday()` days from the record's UTC date and
truncating to midnight (a Monday, `weekday = 0`); each listed bucket's
count is the number of records falling in that week and is positive
(zero weeks are omitted); every record's week is listed; buckets are
strictly ascending by week start; and the two concrete examples:
Wednesday 2024-01-03 buckets to Monday 2024-01-01, and Monday
2024-01-01 00:00 UTC buckets to itself. -/
theorem summarise_weekly_counts_spec :
    (∀ t : Int, weekKey t = dayOf t - weekdayOf (dayOf t) ∧
       weekdayOf (weekKey t) = 0 ∧ week_floor t = weekKey t * 86400) ∧
    (∀ (records : List JobRecord) (k : Int) (c : Nat),
       (k, c) ∈ summarise_weekly_counts records →
       c = records.countP (fun r => weekKey r.listing_date == k) ∧ 0 < c) ∧
    (∀ (records : List JobRecord) (r : JobRecord), r ∈ records →
       (weekKey r.listing_date,
         records.countP (fun r' => weekKey r'.listing_date == weekKey r.listing_date)) ∈
         summarise_weekly_counts records) ∧
    (∀ records : List JobRecord,
       (summarise_weekly_counts records).Pairwise (fun a b => a.1 < b.1)) ∧
    (weekKey (daysFromCivil 2024 1 3 * 86400) = daysFromCivil 2024 1 1 ∧
     weekKey (daysFromCivil 2024 1 1 * 86400) = daysFromCivil 2024 1 1) := by
  refine ⟨?_, ?_, ?_, ?_, by decide, by decide⟩
  · intro t
    refine ⟨rfl, ?_, rfl⟩
    simp only [weekKey, weekdayOf, dayOf]
    omega
  · intro records k c hmem
    have hmem' := (List.perm_insertionSort weekLe _).mem_iff.mp hmem
    rcases List.mem_map.mp hmem' with ⟨k', hk', heq⟩
    have hk : k' = k := congrArg Prod.fst heq
    subst hk
    have hc : c = records.countP (fun r => weekKey r.listing_date == k') :=
      (congrArg Prod.snd heq).symm
    refine ⟨hc, ?_⟩
    rw [hc]
    rw [List.countP_pos_iff]
    rcases List.mem_map.mp (List.mem_dedup.mp hk') with ⟨r, hr, hrk⟩
    exact ⟨r, hr, by simp [hrk]⟩
  · intro records r hr
    apply (List.perm_insertionSort weekLe _).mem_iff.mpr
    apply List.mem_map.mpr
    refine ⟨weekKey r.listing_date, ?_, rfl⟩
    exact List.mem_dedup.mpr (List.mem_map.mpr ⟨r, hr, rfl⟩)
  · intro records
    have hsorted : (summarise_weekly_counts records).Pairwise weekLe :=
      List.sorted_insertionSort weekLe _
    have hkeys : ((((records.map (fun r => weekKey r.listing_date)).dedup).map
        (fun k => (k, records.countP (fun r => weekKey r.listing_date == k)))).map
          Prod.fst).Nodup := by
      rw [List.map_map]
      have : (Prod.fst ∘ fun k =>
          ((k : Int), records.countP (fun r => weekKey r.listing_date == k))) = id := by
        funext k
        rfl
      rw [this, List.map_id]
      exact List.nodup_dedup _
    have hperm : ((summarise_weekly_counts records).map Prod.fst).Perm
        ((((records.map (fun r => weekKey r.listing_date)).dedup).map
          (fun k => (k, records.countP (fun r => weekKey r.listing_date == k)))).map
            Prod.fst) :=
      (List.perm_insertionSort weekLe _).map Prod.fst
    have hnodup : ((summarise_weekly_counts records).map Prod.fst).Nodup :=
      hperm.nodup_iff.mpr hkeys
    have hne : (summarise_weekly_counts records).Pairwise (fun a b => a.1 ≠ b.1) :=
      List.pairwise_map.mp hnodup
    exact (hsorted.and hne).imp (fun h => lt_of_le_of_ne h.1 h.2)

theorem summarise_weekly_counts_spec_witness :
    (weekKey cRecWed.listing_date,
      ([cRecWed] : List JobRecord).countP
        (fun r' => weekKey r'.listing_date == weekKey cRecWed.listing_date)) ∈
      summarise_weekly_counts [cRecWed] :=
  summarise_weekly_counts_spec.2.2.1 [cRecWed] cRecWed (by decide)

/-- **C7.** Skill-frequency ordering: sorting any counts list with the
source's key function yields a list pairwise ordered by descending
frequency with ties broken by ascending (lexicographic) label
(`freqLe`); `compute_skill_frequencies` output is so ordered; and the
counts `{a: 2, b: 3, c: 2}` sort to `[b, a, c]`. -/
theorem compute_skill_frequencies_sorted :
    (∀ l : List (List Nat × Nat), (List.insertionSort freqLe l).Pairwise freqLe) ∧
    (∀ records : List JobRecord, (compute_skill_frequencies records).Pairwise freqLe) ∧
    List.insertionSort freqLe [(strCodes "a", 2), (strCodes "b", 3), (strCodes "c", 2)] =
      [(strCodes "b", 3), (strCodes "a", 2), (strCodes "c", 2)] := by
  refine ⟨fun l => List.sorted_insertionSort freqLe l, 
    fun records => List.sorted_insertionSort freqLe _, by decide⟩

/-- **C9.** Closed lexicon: every label produced by `extract_skills`,
and every key of a skill-frequency map, is a label of the fixed
`SKILL_PATTERNS` lexicon. -/
theorem extract_skills_subset_lexicon :
    (∀ text lab : List Nat, lab ∈ extract_skills text →
       lab ∈ SKILL_PATTERNS.map Prod.fst) ∧
    (∀ (records : List JobRecord) (lab : List Nat) (c : Nat),
       (lab, c) ∈ compute_skill_frequencies records →
       lab ∈ SKILL_PATTERNS.map Prod.fst) := by
  have hfst : ∀ text lab : List Nat, lab ∈ extract_skills text →
      lab ∈ SKILL_PATTERNS.map Prod.fst := by
    intro text lab hmem
    rcases List.mem_map.mp hmem with ⟨p, hp, hplab⟩
    exact hplab ▸ List.mem_map.mpr ⟨p, List.mem_of_mem_filter hp, rfl⟩
  refine ⟨hfst, ?_⟩
  intro records lab c hmem
  have hmem' := (List.perm_insertionSort freqLe _).mem_iff.mp hmem
  unfold skill_counts at hmem'
  rcases List.mem_map.mp hmem' with ⟨lab', hlab', heq⟩
  have hl : lab' = lab := congrArg Prod.fst heq
  subst hl
  rcases List.mem_flatMap.mp (List.mem_dedup.mp hlab') with ⟨r, _, hr⟩
  rcases hd : r.description_text with _ | t
  · rw [hd] at hr
    simp at hr
  · rw [hd] at hr
    exact hfst t lab' hr

theorem extract_skills_subset_lexicon_witness :
    strCodes "python" ∈ SKILL_PATTERNS.map Prod.fst :=
  extract_skills_subset_lexicon.1 (strCodes "We use Python daily") (strCodes "python")
    (by decide)

theorem fetchRetry_succ (resp : Nat → Outcome) (f k : Nat) :
    fetchRetry resp (f + 1) k =
      match resp k with
      | .err => fetchRetry resp f (k + 1)
      | .resp s b =>
        if s = 200 ∧ stripTruthy b = true then (some b, k + 1)
        else if s = 429 then fetchRetry resp f (k + 1)
        else (none, k + 1) := rfl

theorem fetchRetry_bound (resp : Nat → Outcome) :
    ∀ f k : Nat, (fetchRetry resp f k).2 ≤ k + f := by
  intro f
  induction f with
  | zero => intro k; exact Nat.le_refl k
  | succ f ih =>
    intro k
    rw [fetchRetry_succ]
    cases h : resp k with
    | err => exact le_trans (ih (k + 1)) (by omega)
    | resp s b =>
      dsimp only
      by_cases h1 : s = 200 ∧ stripTruthy b = true
      · rw [if_pos h1]; omega
      · rw [if_neg h1]
        by_cases h2 : s = 429
        · rw [if_pos h2]; exact le_trans (ih (k + 1)) (by omega)
        · rw [if_neg h2]; omega

theorem cacheStep_cached (o : List Nat → Nat → Outcome) (st : CacheRun) (i : List Nat)
    (b : List Nat) (h : lookupFS i st.fs = some b) : cacheStep o st i = st := by
  unfold cacheStep
  rw [h]

theorem cacheStep_lookup_mono (o : List Nat → Nat → Outcome) (st : CacheRun)
    (j i : List Nat) (c : List Nat) (h : lookupFS i st.fs = some c) :
    lookupFS i (cacheStep o st j).fs = some c := by
  unfold cacheStep
  rcases hl : lookupFS j st.fs with _ | b
  · have hne : j ≠ i := by
      intro he
      rw [he, h] at hl
      exact Option.noConfusion hl
    dsimp only
    rcases hf : (fetchRetry (o j) MAX_ATTEMPTS 0).1 with _ | body
    · exact h
    · show (if j = i then some body else lookupFS i st.fs) = some c
      rw [if_neg hne]
      exact h
  · exact h

theorem cacheStep_not_fetched (o : List Nat → Nat → Outcome) (st : CacheRun)
    (j i : List Nat) (c : List Nat) (h : lookupFS i st.fs = some c)
    (hi : i ∉ st.fetched) : i ∉ (cacheStep o st j).fetched := by
  unfold cacheStep
  rcases hl : lookupFS j st.fs with _ | b
  · have hne : j ≠ i := by
      intro he
      rw [he, h] at hl
      exact Option.noConfusion hl
    dsimp only
    rcases hf : (fetchRetry (o j) MAX_ATTEMPTS 0).1 with _ | body
    all_goals
      intro hmem
      have hmem' : i ∈ st.fetched ++ [j] := hmem
      rcases List.mem_append.mp hmem' with h' | h'
      · exact hi h'
      · have hij : i = j := by simpa using h'
        exact hne hij.symm
  · exact hi

theorem foldl_cache_preserves (o : List Nat → Nat → Outcome) (jobs : List (List Nat)) :
    ∀ (st : CacheRun) (i : List Nat) (c : List Nat),
      lookupFS i st.fs = some c → i ∉ st.fetched →
      lookupFS i (jobs.foldl (cacheStep o) st).fs = some c ∧
        i ∉ (jobs.foldl (cacheStep o) st).fetched := by
  induction jobs with
  | nil => intro st i c h hi; exact ⟨h, hi⟩
  | cons j jobs ih =>
    intro st i c h hi
    exact ih (cacheStep o st j) i c (cacheStep_lookup_mono o st j i c h)
      (cacheStep_not_fetched o st j i c h hi)

theorem foldl_cache_fs_log_indep (o : List Nat → Nat → Outcome) (jobs : List (List Nat)) :
    ∀ (fs : List (List Nat × List Nat)) (lg lg' : List (List Nat)),
      (jobs.foldl (cacheStep o) ⟨fs, lg⟩).fs = (jobs.foldl (cacheStep o) ⟨fs, lg'⟩).fs := by
  induction jobs with
  | nil => intro fs lg lg'; rfl
  | cons j jobs ih =>
    intro fs lg lg'
    show (jobs.foldl (cacheStep o) (cacheStep o ⟨fs, lg⟩ j)).fs =
      (jobs.foldl (cacheStep o) (cacheStep o ⟨fs, lg'⟩ j)).fs
    unfold cacheStep
    rcases hl : lookupFS j fs with _ | b
    · dsimp only
      rcases hf : (fetchRetry (o j) MAX_ATTEMPTS 0).1 with _ | body
      · exact ih fs (lg ++ [j]) (lg' ++ [j])
      · exact ih ((j, body) :: fs) (lg ++ [j]) (lg' ++ [j])
    · exact ih fs lg lg'

theorem foldl_cache_lookup_none (o : List Nat → Nat → Outcome) (jobs : List (List Nat)) :
    ∀ (st : CacheRun) (i : List Nat), i ∉ jobs → lookupFS i st.fs = none →
      lookupFS i (jobs.foldl (cacheStep o) st).fs = none := by
  induction jobs with
  | nil => intro st i _ h; exact h
  | cons j jobs ih =>
    intro st i hi h
    have hij : i ≠ j := fun he => hi (he ▸ List.mem_cons_self j jobs)
    have hstep : lookupFS i (cacheStep o st j).fs = none := by
      unfold cacheStep
      rcases hl : lookupFS j st.fs with _ | b
      · dsimp only
        rcases hf : (fetchRetry (o j) MAX_ATTEMPTS 0).1 with _ | body
        · exact h
        · show (if j = i then some body else lookupFS i st.fs) = none
          rw [if_neg (fun he => hij he.symm)]
          exact h
      · exact h
    exact ih (cacheStep o st j) i (fun hm => hi (List.mem_cons_of_mem _ hm)) hstep

/-- **C4.** The retry policy of `cache_details`: a transport error and a
429 response each consume one attempt and retry; any other non-200
status, or a 200 whose body is whitespace-only, ends the retry loop at
once with no body; at most `MAX_ATTEMPTS = 4` requests are issued per
identifier; and an identifier whose retry loop yields nothing is left
uncached while the run simply moves on to the remaining identifiers. -/
theorem cache_details_retry_policy :
    (∀ (resp : Nat → Outcome) (f k : Nat), resp k = .err →
       fetchRetry resp (f + 1) k = fetchRetry resp f (k + 1)) ∧
    (∀ (resp : Nat → Outcome) (f k : Nat) (b : List Nat), resp k = .resp 429 b →
       fetchRetry resp (f + 1) k = fetchRetry resp f (k + 1)) ∧
    (∀ (resp : Nat → Outcome) (f k s : Nat) (b : List Nat), resp k = .resp s b →
       ¬(s = 200 ∧ stripTruthy b = true) → s ≠ 429 →
       fetchRetry resp (f + 1) k = (none, k + 1)) ∧
    (∀ (resp : Nat → Outcome) (k : Nat),
       (fetchRetry resp MAX_ATTEMPTS k).2 ≤ k + MAX_ATTEMPTS) ∧
    (∀ (o : List Nat → Nat → Outcome) (i : List Nat) (rest : List (List Nat))
       (fs0 : List (List Nat × List Nat)),
       lookupFS i fs0 = none → (fetchRetry (o i) MAX_ATTEMPTS 0).1 = none → i ∉ rest →
       (cache_details o (i :: rest) fs0).fs = (cache_details o rest fs0).fs ∧
         lookupFS i (cache_details o (i :: rest) fs0).fs = none) := by
  refine ⟨?_, ?_, ?_, fun resp k => fetchRetry_bound resp MAX_ATTEMPTS k, ?_⟩
  · intro resp f k h
    rw [fetchRetry_succ, h]
  · intro resp f k b h
    rw [fetchRetry_succ, h]
    dsimp only
    rw [if_neg (by simp), if_pos rfl]
  · intro resp f k s b h h1 h2
    rw [fetchRetry_succ, h]
    dsimp only
    rw [if_neg h1, if_neg h2]
  · intro o i rest fs0 h1 h2 h3
    have hstep : cacheStep o ⟨fs0, []⟩ i = ⟨fs0, [i]⟩ := by
      unfold cacheStep
      rw [h1]
      dsimp only
      rw [h2]
      simp
    have hrun : cache_details o (i :: rest) fs0 =
        rest.foldl (cacheStep o) ⟨fs0, [i]⟩ := by
      show rest.foldl (cacheStep o) (cacheStep o ⟨fs0, []⟩ i) = _
      rw [hstep]
    constructor
    · rw [hrun]
      exact foldl_cache_fs_log_indep o rest fs0 [i] []
    · rw [hrun]
      exact foldl_cache_lookup_none o rest ⟨fs0, [i]⟩ i h3 h1

theorem cache_details_retry_policy_witness :
    fetchRetry (fun _ => .err) (3 + 1) 0 = fetchRetry (fun _ => .err) 3 1 ∧
    fetchRetry (fun _ => .resp 429 []) (3 + 1) 0 = fetchRetry (fun _ => .resp 429 []) 3 1 ∧
    fetchRetry (cOracle (strCodes "E")) (3 + 1) 0 = (none, 1) ∧
    (fetchRetry (fun _ => .err) MAX_ATTEMPTS 0).2 ≤ 0 + MAX_ATTEMPTS ∧
    ((cache_details cOracle [strCodes "E", strCodes "Y"] []).fs =
        (cache_details cOracle [strCodes "Y"] []).fs ∧
      lookupFS (strCodes "E") (cache_details cOracle [strCodes "E", strCodes "Y"] []).fs =
        none) :=
  ⟨cache_details_retry_policy.1 (fun _ => .err) 3 0 rfl,
   cache_details_retry_policy.2.1 (fun _ => .resp 429 []) 3 0 [] rfl,
   cache_details_retry_policy.2.2.1 (cOracle (strCodes "E")) 3 0 500 (strCodes "boom")
     (by decide) (by decide) (by decide),
   cache_details_retry_policy.2.2.2.1 (fun _ => .err) 0,
   cache_details_retry_policy.2.2.2.2 cOracle (strCodes "E") [strCodes "Y"] []
     rfl (by decide) (by decide)⟩

/-- **C5.** Idempotent, at-most-once caching: an existing cache file is
never deleted or overwritten (its lookup is unchanged by a run), and an
identifier cached by a first run is never fetched again by a second run
over the same identifier list and resulting cache directory, whose
content for it is also unchanged. -/
theorem cache_details_idempotent (o : List Nat → Nat → Outcome)
    (jobs : List (List Nat)) (fs0 : List (List Nat × List Nat)) (i c : List Nat) :
    (lookupFS i fs0 = some c → lookupFS i (cache_details o jobs fs0).fs = some c) ∧
    (lookupFS i (cache_details o jobs fs0).fs = some c →
       i ∉ (cache_details o jobs (cache_details o jobs fs0).fs).fetched ∧
       lookupFS i (cache_details o jobs (cache_details o jobs fs0).fs).fs = some c) := by
  constructor
  · intro h
    exact (foldl_cache_preserves o jobs ⟨fs0, []⟩ i c h (by simp)).1
  · intro h
    have := foldl_cache_preserves o jobs ⟨(cache_details o jobs fs0).fs, []⟩ i c h (by simp)
    exact ⟨this.2, this.1⟩

theorem cache_details_idempotent_witness :
    strCodes "X" ∉ (cache_details cOracle [strCodes "X", strCodes "Y"]
        (cache_details cOracle [strCodes "X", strCodes "Y"]
          [(strCodes "X", strCodes "data")]).fs).fetched ∧
    lookupFS (strCodes "X") (cache_details cOracle [strCodes "X", strCodes "Y"]
        (cache_details cOracle [strCodes "X", strCodes "Y"]
          [(strCodes "X", strCodes "data")]).fs).fs = some (strCodes "data") :=
  (cache_details_idempotent cOracle [strCodes "X", strCodes "Y"]
      [(strCodes "X", strCodes "data")] (strCodes "X") (strCodes "data")).2 (by decide)
